import Mathlib

/-!
Verification development for the incremental autoregressive sampling core of
the GVP-Transformer inverse-folding model
(`esm/inverse_folding/gvp_transformer.py`): the three sampling entry points
`sample`, `sample_batch` and `sample_batch2` of `GVPTransformerModel`.

The sampling loops are embedded shallowly and faithfully from the source.
External collaborators that the source consumes only through narrow
interfaces (the vocabulary, the coordinate batch converter, the structure
encoder, the autoregressive decoder with its incremental cache, the softmax
numerics and the multinomial random draws) are kept abstract, as parameters
of an `Ext` record, matching the interfaces described in the design
document.  Each run is instrumented with a trace that records every decoder
invocation (its token-prefix argument, its encoder-output argument, and the
cache it received and returned), the per-step logits/probability rows, and
the number of encoder invocations, so that structural properties of the
loops (invocation counts, cache threading, encoder reuse) are provable
statements about the embedding rather than side remarks.
-/

deriving instance DecidableEq for Except

namespace GVPSample

/-- A vocabulary symbol (one entry of the alphabet, e.g. `"A"` or `"<mask>"`). -/
abbrev Tok := String

/-- Modelled from the spec: the Vocabulary external collaborator — a
bidirectional mapping between symbols and integer indices with accessors for
the special tokens; `get_idx` fails (`LookupError`) on an unknown symbol.
The source file is only a client of it (`self.decoder.dictionary`). -/
structure Vocab where
  get_idx : Tok → Option Nat
  get_tok : Nat → Tok
  mask_idx : Nat
  cath_idx : Nat

/-- The error classes the sampling entry points can raise:
a vocabulary lookup failure, an index-out-of-range on the token buffer or
on a row access, and the undefined-name error (`NameError`) for a variable
read that was never assigned. -/
inductive SErr where
  | lookupError (tok : Tok)
  | indexError
  | nameError
deriving DecidableEq

/-- Modelled from the spec: the bundle of external collaborators consumed by
the sampling core.  `C` is one residue's coordinates, `Cf` a confidence
value, `Dv` a device, `BI` the batch converter's output, `E` an encoder
output, `K` an incremental decode cache.
  * `convert` is the coordinate batch converter;
  * `encode` is the Structure Encoder;
  * `decStep` is the Autoregressive Decoder step: token prefix, encoder
    output and cache in; next-step logits over the vocabulary and the
    extended cache out;
  * `emptyCache` is the freshly created cache (`incremental_state = dict()`);
  * `sliceEnc` extracts one sample's row of a batched encoder output
    (the per-key slicing block of `sample_batch`);
  * `softmaxFn` is the softmax numerics applied to the temperature-scaled
    logits. -/
structure Ext (C Cf Dv BI E K : Type) where
  voc : Vocab
  convert : List (List C × Option Cf) → Option Dv → BI
  encode : BI → E
  decStep : List Nat → E → K → List ℚ × K
  emptyCache : K
  sliceEnc : E → Nat → E
  softmaxFn : List ℚ → List ℚ

variable {C Cf Dv BI E K : Type}

/-- The partial-sequence write loop
(`for i, c in enumerate(partial_seq): sampled_tokens[0, i+1] = get_idx(c)`):
each supplied symbol is looked up (a lookup failure raises first) and its
index written at offset `pos`; a write past the end of the buffer raises an
index error. -/
def writePartial (voc : Vocab) : List Tok → Nat → List Nat → Except SErr (List Nat)
  | [], _, buf => .ok buf
  | c :: rest, pos, buf =>
    match voc.get_idx c with
    | none => .error (.lookupError c)
    | some v =>
      if pos < buf.length then
        writePartial voc rest (pos + 1) (buf.set pos v)
      else
        .error .indexError

/-- Token-buffer initialization, common to all three strategies
(`torch.full((1, 1+L), mask_idx)`, then the start token at position 0, then
the optional partial-sequence writes at positions `1..`). -/
def initTokens (voc : Vocab) (L : Nat) (ps : Option (List Tok)) : Except SErr (List Nat) :=
  let buf := (List.replicate (1 + L) voc.mask_idx).set 0 voc.cath_idx
  match ps with
  | none => .ok buf
  | some l => writePartial voc l 1 buf

/-- One recorded decoder invocation: the token-prefix argument
(`sampled_tokens[:, :i]`, a single row here), the encoder output passed, and
the incremental cache received and returned. -/
structure DecCall (E K : Type) where
  pref : List Nat
  encArg : E
  cacheIn : K
  cacheOut : K

/-- Loop state of a single-row decode loop (used by `sample` and by each
per-sample inner loop of `sample_batch`): the token buffer, the incremental
cache, the count of random draws consumed so far, the decoder-invocation
trace and the per-step `(logits, probs)` log. -/
structure SState (E K : Type) where
  buf : List Nat
  cache : K
  ctr : Nat
  trace : List (DecCall E K)
  plog : List (List ℚ × List ℚ)

/-- One iteration `i` of the single-row decode loop (`sample`, lines
136-146): invoke the decoder on the prefix `buf[:i]` with the current cache,
scale the logits by `1/temperature`, softmax; then, only if position `i`
still holds the mask index, draw one token (consuming one random value) and
write it at position `i`. -/
def decodeStep (ext : Ext C Cf Dv BI E K) (rng : Nat → List ℚ → Nat) (temp : ℚ)
    (encArg : E) (st : SState E K) (i : Nat) : SState E K :=
  let pre := st.buf.take i
  let out := ext.decStep pre encArg st.cache
  let probs := ext.softmaxFn (out.1.map (fun x => x / temp))
  let st1 : SState E K :=
    { st with
      cache := out.2
      trace := st.trace ++ [⟨pre, encArg, st.cache, out.2⟩]
      plog := st.plog ++ [(out.1, probs)] }
  if st1.buf.getD i 0 = ext.voc.mask_idx then
    { st1 with buf := st1.buf.set i (rng st1.ctr probs), ctr := st1.ctr + 1 }
  else
    st1

/-- The decode loop `for i in range(1, L+1)` over a single row. -/
def decodeLoop (ext : Ext C Cf Dv BI E K) (rng : Nat → List ℚ → Nat) (temp : ℚ)
    (encArg : E) (idxs : List Nat) (st : SState E K) : SState E K :=
  idxs.foldl (decodeStep ext rng temp encArg) st

/-- Result record of a sampling call: how many times the structure encoder
ran, the decoder-invocation trace, the per-step `(logits, probs)` log, the
returned sequences (symbol lists; the Python code joins each into one
string) or the error raised, and the final cache. -/
structure Run (E K : Type) where
  encCalls : Nat
  trace : List (DecCall E K)
  plog : List (List ℚ × List ℚ)
  result : Except SErr (List (List Tok))
  finalCache : K

/-- `GVPTransformerModel.sample` (single-sequence strategy): batch-convert
the one coordinate input, initialize the token buffer (a lookup/bounds
failure raises here, before the encoder runs), run the encoder once, run the
decode loop for `i = 1..L`, and return the symbols of buffer positions
`1..L`.  The `.to(device)` move changes no value and the debug-print flags
print only, so neither appears in the embedding. -/
def sampleRun (ext : Ext C Cf Dv BI E K) (rng : Nat → List ℚ → Nat) (coords : List C)
    (ps : Option (List Tok)) (temp : ℚ) (conf : Option Cf) (dev : Option Dv) : Run E K :=
  let L := coords.length
  let bi := ext.convert [(coords, conf)] dev
  match initTokens ext.voc L ps with
  | .error e => ⟨0, [], [], .error e, ext.emptyCache⟩
  | .ok buf0 =>
    let encOut := ext.encode bi
    let stF := decodeLoop ext rng temp encOut (List.range' 1 L) ⟨buf0, ext.emptyCache, 0, [], []⟩
    ⟨1, stF.trace, stF.plog, .ok [(stF.buf.drop 1).map ext.voc.get_tok], stF.cache⟩

/-- Outer-loop state of `sample_batch`: the shared incremental cache and
draw counter threaded across the per-sample loops, the accumulated trace
and log, and the sequences produced so far. -/
structure BOState (E K : Type) where
  cache : K
  ctr : Nat
  trace : List (DecCall E K)
  plog : List (List ℚ × List ℚ)
  seqs : List (List Tok)

/-- The outer loop `for sample_idx in range(num_samples)` of `sample_batch`.
`allBufs` is `all_sampled_tokens`, which is only assigned inside the
`if device:` branch; when it was never assigned, the first iteration's read
raises the undefined-name error.  Each iteration takes that sample's cloned
buffer, slices that sample's encoder-output row, and runs the full inner
decode loop — threading the one shared `incremental_state` (and the RNG)
from the previous sample's loop, never resetting it. -/
def bOuter (ext : Ext C Cf Dv BI E K) (rng : Nat → List ℚ → Nat) (temp : ℚ) (L : Nat)
    (encAll : E) (allBufs : Option (List (List Nat))) :
    List Nat → BOState E K → BOState E K × Option SErr
  | [], st => (st, none)
  | s :: rest, st =>
    match allBufs with
    | none => (st, some .nameError)
    | some bl =>
      match bl.get? s with
      | none => (st, some .indexError)
      | some buf =>
        let encS := ext.sliceEnc encAll s
        let stF := decodeLoop ext rng temp encS (List.range' 1 L) ⟨buf, st.cache, st.ctr, st.trace, st.plog⟩
        bOuter ext rng temp L encAll allBufs rest
          ⟨stF.cache, stF.ctr, stF.trace, stF.plog,
            st.seqs ++ [(stF.buf.drop 1).map ext.voc.get_tok]⟩

/-- `GVPTransformerModel.sample_batch` (independent multi-sample strategy):
batch-convert `num_samples` copies of the coordinate input, initialize one
token buffer, run the encoder once on the whole batch; the per-sample buffer
clones exist only when a device was supplied (`if device:`); then run the
per-sample outer loop with the single shared cache. -/
def batchRun (ext : Ext C Cf Dv BI E K) (rng : Nat → List ℚ → Nat) (coords : List C)
    (num : Nat) (ps : Option (List Tok)) (temp : ℚ) (conf : Option Cf) (dev : Option Dv) :
    Run E K :=
  let L := coords.length
  let bi := ext.convert (List.replicate num (coords, conf)) dev
  match initTokens ext.voc L ps with
  | .error e => ⟨0, [], [], .error e, ext.emptyCache⟩
  | .ok buf0 =>
    let encAll := ext.encode bi
    let allBufs := if dev.isSome then some (List.replicate num buf0) else none
    let r := bOuter ext rng temp L encAll allBufs (List.range num) ⟨ext.emptyCache, 0, [], [], []⟩
    match r.2 with
    | some e => ⟨1, r.1.trace, r.1.plog, .error e, r.1.cache⟩
    | none => ⟨1, r.1.trace, r.1.plog, .ok r.1.seqs, r.1.cache⟩

/-- One recorded batched decoder invocation of `sample_batch2`: the batch of
token-prefix rows, the encoder output, and the per-row caches in and out. -/
structure DecCall2 (E K : Type) where
  prefs : List (List Nat)
  encArg : E
  cacheIn : List K
  cacheOut : List K

/-- Loop state of the vectorized decode loop of `sample_batch2`: one token
buffer per sample row, the per-row incremental caches, the draw counter,
and the trace and per-step `(logits rows, probs rows)` log. -/
structure B2State (E K : Type) where
  bufs : List (List Nat)
  caches : List K
  ctr : Nat
  trace : List (DecCall2 E K)
  plog : List (List (List ℚ) × List (List ℚ))

/-- Modelled from the spec: the Autoregressive Decoder on a batched prefix —
the decoder and its incremental cache are external to the source file; per
the design document the batched invocation computes each sample row
independently, the cache being keyed by batch position. -/
def decStepBatch (ext : Ext C Cf Dv BI E K) (prows : List (List Nat)) (e : E)
    (ks : List K) : List (List ℚ) × List K :=
  ((prows.zip ks).map (fun pk => ext.decStep pk.1 e pk.2)).unzip

/-- The row loop `for j in range(logits.shape[1])` of `sample_batch2` at
step `i`: for each row (paired with its probability row, in row order), if
that row's position `i` still holds the mask index, the code first evaluates
`torch.multinomial(...)` inside a debug `print` — consuming one random draw
whose value is discarded — and then draws again and writes that second draw
at position `i`. -/
def b2Rows (ext : Ext C Cf Dv BI E K) (rng : Nat → List ℚ → Nat) (i : Nat) :
    List (List Nat × List ℚ) → Nat → List (List Nat) × Nat
  | [], ctr => ([], ctr)
  | (buf, probs) :: rest, ctr =>
    if buf.getD i 0 = ext.voc.mask_idx then
      let r := b2Rows ext rng i rest (ctr + 2)
      (buf.set i (rng (ctr + 1) probs) :: r.1, r.2)
    else
      let r := b2Rows ext rng i rest ctr
      (buf :: r.1, r.2)

/-- One iteration `i` of the vectorized decode loop of `sample_batch2`: a
single batched decoder invocation on all rows' prefixes, per-row temperature
scaling and softmax, then the row write loop. -/
def b2Step (ext : Ext C Cf Dv BI E K) (rng : Nat → List ℚ → Nat) (temp : ℚ)
    (encArg : E) (st : B2State E K) (i : Nat) : B2State E K :=
  let prows := st.bufs.map (fun b => b.take i)
  let dz := decStepBatch ext prows encArg st.caches
  let probsRows := (dz.1.map (fun row => row.map (fun x => x / temp))).map ext.softmaxFn
  let rw := b2Rows ext rng i (st.bufs.zip probsRows) st.ctr
  { bufs := rw.1
    caches := dz.2
    ctr := rw.2
    trace := st.trace ++ [⟨prows, encArg, st.caches, dz.2⟩]
    plog := st.plog ++ [(dz.1, probsRows)] }

/-- The final extraction loop `for sample_idx in range(num_samples)`:
read row `sample_idx` of the token buffer (an absent row is an index
error) and translate its positions `1..L` back to symbols. -/
def extractSeqs (voc : Vocab) (bufs : List (List Nat)) :
    List Nat → Except SErr (List (List Tok))
  | [] => .ok []
  | s :: rest =>
    match bufs.get? s with
    | none => .error .indexError
    | some b =>
      match extractSeqs voc bufs rest with
      | .error e => .error e
      | .ok tl => .ok (((b.drop 1).map voc.get_tok) :: tl)

/-- Result record of a `sample_batch2` call. -/
structure Run2 (E K : Type) where
  encCalls : Nat
  trace : List (DecCall2 E K)
  plog : List (List (List ℚ) × List (List ℚ))
  result : Except SErr (List (List Tok))

/-- `GVPTransformerModel.sample_batch2` (vectorized multi-sample strategy):
batch-convert `num_samples` copies, initialize one token buffer, run the
encoder once; the buffer is replicated across the batch dimension only
inside the `if device:` branch (`sampled_tokens.repeat(num_samples, 1)`),
otherwise it stays a single row; the encoder output is repackaged unchanged
(key-for-key) for the decoder; then the vectorized decode loop runs for
`i = 1..L`, and the extraction loop reads `num_samples` rows. -/
def batch2Run (ext : Ext C Cf Dv BI E K) (rng : Nat → List ℚ → Nat) (coords : List C)
    (num : Nat) (ps : Option (List Tok)) (temp : ℚ) (conf : Option Cf) (dev : Option Dv) :
    Run2 E K :=
  let L := coords.length
  let bi := ext.convert (List.replicate num (coords, conf)) dev
  match initTokens ext.voc L ps with
  | .error e => ⟨0, [], [], .error e⟩
  | .ok buf0 =>
    let encAll := ext.encode bi
    let bufs0 := if dev.isSome then List.replicate num buf0 else [buf0]
    let stF := (List.range' 1 L).foldl (b2Step ext rng temp encAll)
      ⟨bufs0, List.replicate bufs0.length ext.emptyCache, 0, [], []⟩
    ⟨1, stF.trace, stF.plog, extractSeqs ext.voc stF.bufs (List.range num)⟩

/-- `chainedFrom k0 tr` states that the cache passed to the first recorded
decoder invocation is `k0` and that every later invocation received exactly
the cache returned by the invocation before it — i.e. one single cache
value is threaded through the whole trace, never reset. -/
def chainedFrom (k0 : K) : List (DecCall E K) → Prop
  | [] => True
  | dc :: rest => dc.cacheIn = k0 ∧ chainedFrom dc.cacheOut rest

/-- The cache state after a trace: the last invocation's returned cache, or
the start value for an empty trace. -/
def endCache (k0 : K) (tr : List (DecCall E K)) : K :=
  tr.foldl (fun _ dc => dc.cacheOut) k0

/-! ### A concrete instantiation used for witnesses and counterexamples -/

/-- A small concrete vocabulary: two residue symbols and the two special
tokens the source looks up. -/
def voc0 : Vocab where
  get_idx := fun c =>
    if c = "A" then some 0
    else if c = "B" then some 1
    else if c = "<mask>" then some 2
    else if c = "<cath>" then some 3
    else none
  get_tok := fun v =>
    if v = 0 then "A" else if v = 1 then "B" else if v = 2 then "<mask>"
    else if v = 3 then "<cath>" else ""
  mask_idx := 2
  cath_idx := 3

/-- A concrete external-collaborator bundle over unit coordinate/device
types, with a cache that counts the decoder invocations it has seen. -/
def ext0 : Ext Unit Unit Unit Unit Unit Nat where
  voc := voc0
  convert := fun _ _ => ()
  encode := fun _ => ()
  decStep := fun _ _ k => ([0, 0, 0, 0], k + 1)
  emptyCache := 0
  sliceEnc := fun e _ => e
  softmaxFn := fun l => l

/-- A concrete random stream: the k-th multinomial invocation returns token
index `k` (every index has positive softmax probability, so any stream of
in-range values is a possible execution). -/
def rng0 : Nat → List ℚ → Nat := fun k _ => k

/-- The single-sequence stream matching `rng0` through the draw-index
mapping of the vectorized strategy (whose loop consumes two draws per
masked position and writes the second). -/
def rngW : Nat → List ℚ → Nat := fun k p => rng0 (2 * k + 1) p

/-! ### List helper lemmas (reads and writes of the token buffer) -/

lemma getD_set_ne (l : List Nat) (i j v : Nat) (h : i ≠ j) :
    (l.set i v).getD j 0 = l.getD j 0 := by
  induction l generalizing i j with
  | nil => rfl
  | cons a t ih =>
    cases i with
    | zero =>
      cases j with
      | zero => exact absurd rfl h
      | succ m => rfl
    | succ n =>
      cases j with
      | zero => rfl
      | succ m =>
        simpa [List.set, List.getD] using ih n m (fun hnm => h (by simp [hnm]))

lemma getD_set_self (l : List Nat) (i v : Nat) (h : i < l.length) :
    (l.set i v).getD i 0 = v := by
  induction l generalizing i with
  | nil => simp at h
  | cons a t ih =>
    cases i with
    | zero => rfl
    | succ n =>
      simpa [List.set, List.getD] using ih n (by simpa using h)

lemma getD_replicate (n j m : Nat) (h : j < n) : (List.replicate n m).getD j 0 = m := by
  induction n generalizing j with
  | zero => simp at h
  | succ k ih =>
    cases j with
    | zero => rfl
    | succ i => simpa [List.replicate, List.getD] using ih i (by omega)

/-- The freshly initialized buffer holds the mask index at every position
`1 ≤ j < 1 + L`. -/
lemma initBase_getD (L m c j : Nat) (h1 : 1 ≤ j) (h2 : j < 1 + L) :
    ((List.replicate (1 + L) m).set 0 c).getD j 0 = m := by
  have hne : (0 : Nat) ≠ j := by omega
  rw [getD_set_ne _ _ _ _ hne, getD_replicate _ _ _ h2]

/-! ### `writePartial` and `initTokens` characterizations -/

lemma writePartial_length (voc : Vocab) :
    ∀ (l : List Tok) (pos : Nat) (buf buf' : List Nat),
      writePartial voc l pos buf = .ok buf' → buf'.length = buf.length := by
  intro l
  induction l with
  | nil => intro pos buf buf' h; cases h; rfl
  | cons c rest ih =>
    intro pos buf buf' h
    unfold writePartial at h
    split at h
    · cases h
    · split at h
      · have h2 := ih _ _ _ h
        simpa using h2
      · cases h

lemma writePartial_bound (voc : Vocab) :
    ∀ (l : List Tok) (pos : Nat) (buf buf' : List Nat),
      writePartial voc l pos buf = .ok buf' → ∀ k, k < l.length → pos + k < buf.length := by
  intro l
  induction l with
  | nil => intro pos buf buf' _ k hk; simp at hk
  | cons c rest ih =>
    intro pos buf buf' h k hk
    unfold writePartial at h
    split at h
    · cases h
    · split at h
      · rename_i hlt
        cases k with
        | zero => simpa using hlt
        | succ m =>
          have h2 := ih _ _ _ h m (by simpa using hk)
          rw [List.length_set] at h2
          omega
      · cases h

/-- Positions below the write window are untouched by `writePartial`. -/
lemma writePartial_lo (voc : Vocab) :
    ∀ (l : List Tok) (pos : Nat) (buf buf' : List Nat),
      writePartial voc l pos buf = .ok buf' →
      ∀ j, j < pos → buf'.getD j 0 = buf.getD j 0 := by
  intro l
  induction l with
  | nil => intro pos buf buf' h j _; cases h; rfl
  | cons c rest ih =>
    intro pos buf buf' h j hj
    unfold writePartial at h
    split at h
    · cases h
    · split at h
      · rename_i v _ _
        have h2 := ih _ _ _ h j (by omega)
        rw [h2, getD_set_ne _ _ _ _ (by omega)]
      · cases h

/-- Positions at or above `pos + l.length` are untouched by `writePartial`. -/
lemma writePartial_hi (voc : Vocab) :
    ∀ (l : List Tok) (pos : Nat) (buf buf' : List Nat),
      writePartial voc l pos buf = .ok buf' →
      ∀ j, pos + l.length ≤ j → buf'.getD j 0 = buf.getD j 0 := by
  intro l
  induction l with
  | nil => intro pos buf buf' h j _; cases h; rfl
  | cons c rest ih =>
    intro pos buf buf' h j hj
    unfold writePartial at h
    split at h
    · cases h
    · split at h
      · rename_i v _ _
        have h2 := ih _ _ _ h j (by simp only [List.length_cons] at hj; omega)
        rw [h2, getD_set_ne _ _ _ _ (by simp only [List.length_cons] at hj; omega)]
      · cases h

/-- After a successful `writePartial`, position `pos + k` holds the index of
the `k`-th supplied symbol. -/
lemma writePartial_get (voc : Vocab) :
    ∀ (l : List Tok) (pos : Nat) (buf buf' : List Nat),
      writePartial voc l pos buf = .ok buf' →
      ∀ k c v, l.get? k = some c → voc.get_idx c = some v →
        buf'.getD (pos + k) 0 = v := by
  intro l
  induction l with
  | nil => intro pos buf buf' _ k c v hk _; simp at hk
  | cons c0 rest ih =>
    intro pos buf buf' h k c v hk hv
    unfold writePartial at h
    split at h
    · cases h
    · split at h
      · rename_i v0 hidx hlt
        cases k with
        | zero =>
          simp at hk
          subst hk
          rw [hidx] at hv
          cases hv
          have h2 := writePartial_lo voc rest (pos + 1) _ _ h pos (by omega)
          rw [Nat.add_zero, h2]
          exact getD_set_self buf pos _ hlt
        | succ m =>
          have h2 := ih _ _ _ h m c v (by simpa using hk) hv
          have heq : pos + (m + 1) = pos + 1 + m := by omega
          rw [heq]
          exact h2
      · cases h

/-- One-step equation of `writePartial` on a cons cell. -/
lemma writePartial_cons (voc : Vocab) (c : Tok) (rest : List Tok) (pos : Nat)
    (buf : List Nat) :
    writePartial voc (c :: rest) pos buf =
      match voc.get_idx c with
      | none => .error (.lookupError c)
      | some v =>
        if pos < buf.length then writePartial voc rest (pos + 1) (buf.set pos v)
        else .error .indexError := rfl

/-- `writePartial` on an appended list: a failure of the first part is the
whole call's failure. -/
lemma writePartial_append_err (voc : Vocab) :
    ∀ (l1 l2 : List Tok) (pos : Nat) (buf : List Nat) (e : SErr),
      writePartial voc l1 pos buf = .error e →
      writePartial voc (l1 ++ l2) pos buf = .error e := by
  intro l1
  induction l1 with
  | nil => intro l2 pos buf e h; cases h
  | cons c rest ih =>
    intro l2 pos buf e h
    rw [writePartial_cons] at h
    show writePartial voc (c :: (rest ++ l2)) pos buf = _
    rw [writePartial_cons]
    cases hidx : voc.get_idx c with
    | none =>
      simp only [hidx] at h ⊢
      exact h
    | some v =>
      simp only [hidx] at h ⊢
      by_cases hlt : pos < buf.length
      · rw [if_pos hlt] at h ⊢
        exact ih l2 _ _ e h
      · rw [if_neg hlt] at h ⊢
        exact h

/-- `writePartial` on an appended list: when the first part succeeds, the
call continues with the second part at the shifted offset. -/
lemma writePartial_append_ok (voc : Vocab) :
    ∀ (l1 l2 : List Tok) (pos : Nat) (buf b : List Nat),
      writePartial voc l1 pos buf = .ok b →
      writePartial voc (l1 ++ l2) pos buf = writePartial voc l2 (pos + l1.length) b := by
  intro l1
  induction l1 with
  | nil => intro l2 pos buf b h; cases h; rfl
  | cons c rest ih =>
    intro l2 pos buf b h
    rw [writePartial_cons] at h
    show writePartial voc (c :: (rest ++ l2)) pos buf = _
    rw [writePartial_cons]
    cases hidx : voc.get_idx c with
    | none => simp only [hidx] at h; cases h
    | some v =>
      simp only [hidx] at h ⊢
      by_cases hlt : pos < buf.length
      · rw [if_pos hlt] at h ⊢
        have heq : pos + 1 + rest.length = pos + (c :: rest).length := by
          simp only [List.length_cons]
          omega
        rw [ih l2 _ _ b h, heq]
      · rw [if_neg hlt] at h
        cases h

/-- If the supplied symbols overflow the buffer, or one of them is unknown
to the vocabulary, `writePartial` raises (a lookup error or an index
error). -/
lemma writePartial_fail (voc : Vocab) :
    ∀ (l : List Tok) (pos : Nat) (buf : List Nat), pos ≤ buf.length →
      (buf.length < pos + l.length ∨ ∃ c ∈ l, voc.get_idx c = none) →
      ∃ e, writePartial voc l pos buf = .error e ∧
        ((∃ c, e = .lookupError c) ∨ e = .indexError) := by
  intro l
  induction l with
  | nil =>
    intro pos buf hpos hbad
    rcases hbad with hb | ⟨c, hc, _⟩
    · simp at hb; omega
    · simp at hc
  | cons c0 rest ih =>
    intro pos buf hpos hbad
    unfold writePartial
    cases hidx : voc.get_idx c0 with
    | none => exact ⟨.lookupError c0, by simp, .inl ⟨c0, rfl⟩⟩
    | some v =>
      simp only
      by_cases hlt : pos < buf.length
      · rw [if_pos hlt]
        refine ih (pos + 1) (buf.set pos v) (by rw [List.length_set]; omega) ?_
        rcases hbad with hb | ⟨c, hc, hcn⟩
        · left; rw [List.length_set]; simp only [List.length_cons] at hb; omega
        · right
          refine ⟨c, ?_, hcn⟩
          rcases List.mem_cons.mp hc with rfl | hmem
          · rw [hidx] at hcn; cases hcn
          · exact hmem
      · rw [if_neg hlt]
        exact ⟨.indexError, rfl, .inr rfl⟩

/-! ### `initTokens` characterizations -/

lemma initTokens_length (voc : Vocab) (L : Nat) (ps : Option (List Tok)) (buf : List Nat)
    (h : initTokens voc L ps = .ok buf) : buf.length = 1 + L := by
  unfold initTokens at h
  cases ps with
  | none => cases h; simp
  | some l =>
    have h2 := writePartial_length voc l 1 _ _ h
    simpa using h2

/-- After a successful initialization from a partial sequence, position
`k + 1` of the buffer holds the index of the `k`-th supplied symbol. -/
lemma initTokens_fixed (voc : Vocab) (L : Nat) (l : List Tok) (buf : List Nat)
    (h : initTokens voc L (some l) = .ok buf)
    (k : Nat) (c : Tok) (v : Nat) (hk : l.get? k = some c) (hv : voc.get_idx c = some v) :
    buf.getD (k + 1) 0 = v := by
  have h2 := writePartial_get voc l 1 _ _ h k c v hk hv
  simpa [Nat.add_comm] using h2

/-- A successful initialization bounds the partial sequence by `L`. -/
lemma initTokens_ps_lt (voc : Vocab) (L : Nat) (l : List Tok) (buf : List Nat)
    (h : initTokens voc L (some l) = .ok buf)
    (k : Nat) (hk : k < l.length) : k + 1 < 1 + L := by
  have h2 := writePartial_bound voc l 1 _ _ h k hk
  simp at h2
  omega

/-- Positions beyond the supplied symbols still hold the mask index after a
successful initialization. -/
lemma initTokens_mask_hi (voc : Vocab) (L : Nat) (l : List Tok) (buf : List Nat)
    (h : initTokens voc L (some l) = .ok buf)
    (j : Nat) (hj1 : l.length + 1 ≤ j) (hj2 : j < 1 + L) :
    buf.getD j 0 = voc.mask_idx := by
  have h2 := writePartial_hi voc l 1 _ _ h j (by omega)
  rw [h2]
  exact initBase_getD L voc.mask_idx voc.cath_idx j (by omega) hj2

/-! ### Decode-loop invariants -/

variable (ext : Ext C Cf Dv BI E K) (rng : Nat → List ℚ → Nat) (temp : ℚ) (e : E)

lemma decodeLoop_nil (st : SState E K) : decodeLoop ext rng temp e [] st = st := rfl

lemma decodeLoop_cons (i : Nat) (rest : List Nat) (st : SState E K) :
    decodeLoop ext rng temp e (i :: rest) st =
      decodeLoop ext rng temp e rest (decodeStep ext rng temp e st i) := rfl

lemma decodeStep_buf_length (st : SState E K) (i : Nat) :
    (decodeStep ext rng temp e st i).buf.length = st.buf.length := by
  unfold decodeStep
  dsimp only
  split
  · simp
  · rfl

lemma decodeLoop_buf_length :
    ∀ (idxs : List Nat) (st : SState E K),
      (decodeLoop ext rng temp e idxs st).buf.length = st.buf.length := by
  intro idxs
  induction idxs with
  | nil => intro st; rfl
  | cons i rest ih =>
    intro st
    rw [decodeLoop_cons, ih, decodeStep_buf_length]

/-- A buffer position not holding the mask index is untouched by a decode
step: the multinomial write happens only at a position holding the mask. -/
lemma decodeStep_preserve (st : SState E K) (i k : Nat)
    (h : st.buf.getD k 0 ≠ ext.voc.mask_idx) :
    (decodeStep ext rng temp e st i).buf.getD k 0 = st.buf.getD k 0 := by
  unfold decodeStep
  dsimp only
  split
  · rename_i hmask
    by_cases hik : i = k
    · subst hik
      exact absurd hmask h
    · exact getD_set_ne _ _ _ _ hik
  · rfl

lemma decodeLoop_preserve :
    ∀ (idxs : List Nat) (st : SState E K) (k : Nat),
      st.buf.getD k 0 ≠ ext.voc.mask_idx →
      (decodeLoop ext rng temp e idxs st).buf.getD k 0 = st.buf.getD k 0 := by
  intro idxs
  induction idxs with
  | nil => intro st k _; rfl
  | cons i rest ih =>
    intro st k h
    have hstep := decodeStep_preserve ext rng temp e st i k h
    rw [decodeLoop_cons, ih _ k (by rw [hstep]; exact h), hstep]

lemma decodeStep_trace (st : SState E K) (i : Nat) :
    (decodeStep ext rng temp e st i).trace =
      st.trace ++ [⟨st.buf.take i, e, st.cache, (ext.decStep (st.buf.take i) e st.cache).2⟩] := by
  unfold decodeStep
  dsimp only
  split
  · rfl
  · rfl

lemma decodeStep_cache (st : SState E K) (i : Nat) :
    (decodeStep ext rng temp e st i).cache = (ext.decStep (st.buf.take i) e st.cache).2 := by
  unfold decodeStep
  dsimp only
  split
  · rfl
  · rfl

lemma decodeLoop_trace_length :
    ∀ (idxs : List Nat) (st : SState E K),
      (decodeLoop ext rng temp e idxs st).trace.length = st.trace.length + idxs.length := by
  intro idxs
  induction idxs with
  | nil => intro st; rfl
  | cons i rest ih =>
    intro st
    rw [decodeLoop_cons, ih, decodeStep_trace]
    simp only [List.length_append, List.length_cons, List.length_nil]
    omega

/-- Every decoder invocation recorded by the loop received `e` as its
encoder-output argument (beyond whatever trace was already present). -/
lemma decodeLoop_encArg :
    ∀ (idxs : List Nat) (st : SState E K) (dc : DecCall E K),
      dc ∈ (decodeLoop ext rng temp e idxs st).trace →
      dc ∈ st.trace ∨ dc.encArg = e := by
  intro idxs
  induction idxs with
  | nil => intro st dc h; exact .inl h
  | cons i rest ih =>
    intro st dc h
    rw [decodeLoop_cons] at h
    rcases ih _ dc h with hmem | henc
    · rw [decodeStep_trace] at hmem
      rcases List.mem_append.mp hmem with hmem' | hone
      · exact .inl hmem'
      · simp at hone
        subst hone
        exact .inr rfl
    · exact .inr henc

/-! ### Cache threading (chaining of decoder invocations) -/

lemma endCache_append (k0 : K) (tr : List (DecCall E K)) (dc : DecCall E K) :
    endCache k0 (tr ++ [dc]) = dc.cacheOut := by
  simp [endCache, List.foldl_append]

lemma chainedFrom_append (k0 : K) (tr : List (DecCall E K)) (dc : DecCall E K) :
    chainedFrom k0 tr → dc.cacheIn = endCache k0 tr → chainedFrom k0 (tr ++ [dc]) := by
  induction tr generalizing k0 with
  | nil => intro _ h2; exact ⟨h2, trivial⟩
  | cons d rest ih =>
    intro h1 h2
    exact ⟨h1.1, ih d.cacheOut h1.2 h2⟩

lemma decodeStep_chain (k0 : K) (st : SState E K) (i : Nat)
    (h1 : chainedFrom k0 st.trace) (h2 : endCache k0 st.trace = st.cache) :
    chainedFrom k0 (decodeStep ext rng temp e st i).trace ∧
      endCache k0 (decodeStep ext rng temp e st i).trace = (decodeStep ext rng temp e st i).cache := by
  rw [decodeStep_trace, decodeStep_cache]
  constructor
  · exact chainedFrom_append k0 st.trace _ h1 (by rw [h2])
  · rw [endCache_append]

lemma decodeLoop_chain (k0 : K) :
    ∀ (idxs : List Nat) (st : SState E K),
      chainedFrom k0 st.trace → endCache k0 st.trace = st.cache →
      chainedFrom k0 (decodeLoop ext rng temp e idxs st).trace ∧
        endCache k0 (decodeLoop ext rng temp e idxs st).trace =
          (decodeLoop ext rng temp e idxs st).cache := by
  intro idxs
  induction idxs with
  | nil => intro st h1 h2; exact ⟨h1, h2⟩
  | cons i rest ih =>
    intro st h1 h2
    rw [decodeLoop_cons]
    have hstep := decodeStep_chain ext rng temp e k0 st i h1 h2
    exact ih _ hstep.1 hstep.2

/-! ### Small list-access lemmas -/

lemma get?_of_getD (l : List Nat) (j : Nat) (h : j < l.length) :
    l.get? j = some (l.getD j 0) := by
  induction l generalizing j with
  | nil => simp at h
  | cons a t ih =>
    cases j with
    | zero => rfl
    | succ m => exact ih m (by simpa using h)

lemma get?_replicate {α : Type} (n s : Nat) (a : α) (h : s < n) :
    (List.replicate n a).get? s = some a := by
  induction n generalizing s with
  | zero => simp at h
  | succ m ih =>
    cases s with
    | zero => rfl
    | succ t => exact ih t (by omega)

lemma mem_replicate_eq {α : Type} (n : Nat) (a b : α) (h : b ∈ List.replicate n a) :
    b = a := (List.eq_of_mem_replicate h)

/-! ### Run-level equation lemmas -/

lemma sampleRun_ok (coords : List C) (ps : Option (List Tok)) (conf : Option Cf)
    (dev : Option Dv) (buf0 : List Nat)
    (h : initTokens ext.voc coords.length ps = .ok buf0) :
    sampleRun ext rng coords ps temp conf dev =
      ⟨1,
       (decodeLoop ext rng temp (ext.encode (ext.convert [(coords, conf)] dev))
          (List.range' 1 coords.length) ⟨buf0, ext.emptyCache, 0, [], []⟩).trace,
       (decodeLoop ext rng temp (ext.encode (ext.convert [(coords, conf)] dev))
          (List.range' 1 coords.length) ⟨buf0, ext.emptyCache, 0, [], []⟩).plog,
       .ok [((decodeLoop ext rng temp (ext.encode (ext.convert [(coords, conf)] dev))
          (List.range' 1 coords.length) ⟨buf0, ext.emptyCache, 0, [], []⟩).buf.drop 1).map ext.voc.get_tok],
       (decodeLoop ext rng temp (ext.encode (ext.convert [(coords, conf)] dev))
          (List.range' 1 coords.length) ⟨buf0, ext.emptyCache, 0, [], []⟩).cache⟩ := by
  unfold sampleRun
  dsimp only
  rw [h]

lemma sampleRun_err (coords : List C) (ps : Option (List Tok)) (conf : Option Cf)
    (dev : Option Dv) (er : SErr)
    (h : initTokens ext.voc coords.length ps = .error er) :
    sampleRun ext rng coords ps temp conf dev = ⟨0, [], [], .error er, ext.emptyCache⟩ := by
  unfold sampleRun
  dsimp only
  rw [h]

lemma batchRun_ok (coords : List C) (num : Nat) (ps : Option (List Tok)) (conf : Option Cf)
    (dev : Option Dv) (buf0 : List Nat)
    (h : initTokens ext.voc coords.length ps = .ok buf0) :
    batchRun ext rng coords num ps temp conf dev =
      (let encAll := ext.encode (ext.convert (List.replicate num (coords, conf)) dev);
       let allBufs := if dev.isSome then some (List.replicate num buf0) else none;
       let r := bOuter ext rng temp coords.length encAll allBufs (List.range num)
         ⟨ext.emptyCache, 0, [], [], []⟩;
       match r.2 with
       | some er => ⟨1, r.1.trace, r.1.plog, .error er, r.1.cache⟩
       | none => ⟨1, r.1.trace, r.1.plog, .ok r.1.seqs, r.1.cache⟩) := by
  unfold batchRun
  dsimp only
  rw [h]

lemma batchRun_err (coords : List C) (num : Nat) (ps : Option (List Tok)) (conf : Option Cf)
    (dev : Option Dv) (er : SErr)
    (h : initTokens ext.voc coords.length ps = .error er) :
    batchRun ext rng coords num ps temp conf dev = ⟨0, [], [], .error er, ext.emptyCache⟩ := by
  unfold batchRun
  dsimp only
  rw [h]

lemma batch2Run_ok (coords : List C) (num : Nat) (ps : Option (List Tok)) (conf : Option Cf)
    (dev : Option Dv) (buf0 : List Nat)
    (h : initTokens ext.voc coords.length ps = .ok buf0) :
    batch2Run ext rng coords num ps temp conf dev =
      (let encAll := ext.encode (ext.convert (List.replicate num (coords, conf)) dev);
       let bufs0 := if dev.isSome then List.replicate num buf0 else [buf0];
       let stF := (List.range' 1 coords.length).foldl (b2Step ext rng temp encAll)
         ⟨bufs0, List.replicate bufs0.length ext.emptyCache, 0, [], []⟩;
       ⟨1, stF.trace, stF.plog, extractSeqs ext.voc stF.bufs (List.range num)⟩) := by
  unfold batch2Run
  dsimp only
  rw [h]

lemma batch2Run_err (coords : List C) (num : Nat) (ps : Option (List Tok)) (conf : Option Cf)
    (dev : Option Dv) (er : SErr)
    (h : initTokens ext.voc coords.length ps = .error er) :
    batch2Run ext rng coords num ps temp conf dev = ⟨0, [], [], .error er⟩ := by
  unfold batch2Run
  dsimp only
  rw [h]

end GVPSample

namespace GVPSample

variable {C Cf Dv BI E K : Type}

/-- C2: for every coordinate input of length `L ≥ 1` and every temperature
`T > 0`, the single-sequence sampler `sample` returns one sequence of
exactly `L` symbols — the symbols of token-buffer positions `1..L`, the
prepended start token excluded. -/
theorem C2_sample_returns_length_L (ext : Ext C Cf Dv BI E K) (rng : Nat → List ℚ → Nat)
    (coords : List C) (temp : ℚ) (conf : Option Cf) (dev : Option Dv)
    (hL : 0 < coords.length) (htemp : 0 < temp) :
    ∃ out, (sampleRun ext rng coords none temp conf dev).result = .ok [out] ∧
      out.length = coords.length := by
  have hinit : initTokens ext.voc coords.length none =
      .ok ((List.replicate (1 + coords.length) ext.voc.mask_idx).set 0 ext.voc.cath_idx) := rfl
  rw [sampleRun_ok ext rng temp coords none conf dev _ hinit]
  refine ⟨_, rfl, ?_⟩
  rw [List.length_map, List.length_drop, decodeLoop_buf_length]
  simp only [List.length_set, List.length_replicate]
  omega

/-- Witness for C2: a call of length 1 at temperature 1. -/
theorem C2_witness :
    (0 : Nat) < ([()] : List Unit).length ∧ (0 : ℚ) < 1 ∧
    ∃ out, (sampleRun ext0 rng0 [()] none 1 none none).result = .ok [out] ∧
      out.length = ([()] : List Unit).length :=
  ⟨by decide, by decide,
    C2_sample_returns_length_L ext0 rng0 [()] 1 none none (by decide) (by decide)⟩

/-! ### `bOuter` equations and invariants -/

variable (ext : Ext C Cf Dv BI E K) (rng : Nat → List ℚ → Nat) (temp : ℚ)

lemma bOuter_nil (Lv : Nat) (encAll : E) (ab : Option (List (List Nat))) (st : BOState E K) :
    bOuter ext rng temp Lv encAll ab [] st = (st, none) := rfl

lemma bOuter_cons_none (Lv : Nat) (encAll : E) (s : Nat) (rest : List Nat) (st : BOState E K) :
    bOuter ext rng temp Lv encAll none (s :: rest) st = (st, some .nameError) := rfl

lemma bOuter_cons_some (Lv : Nat) (encAll : E) (bl : List (List Nat)) (buf : List Nat)
    (s : Nat) (rest : List Nat) (st : BOState E K) (hs : bl.get? s = some buf) :
    bOuter ext rng temp Lv encAll (some bl) (s :: rest) st =
      bOuter ext rng temp Lv encAll (some bl) rest
        ⟨(decodeLoop ext rng temp (ext.sliceEnc encAll s) (List.range' 1 Lv)
            ⟨buf, st.cache, st.ctr, st.trace, st.plog⟩).cache,
         (decodeLoop ext rng temp (ext.sliceEnc encAll s) (List.range' 1 Lv)
            ⟨buf, st.cache, st.ctr, st.trace, st.plog⟩).ctr,
         (decodeLoop ext rng temp (ext.sliceEnc encAll s) (List.range' 1 Lv)
            ⟨buf, st.cache, st.ctr, st.trace, st.plog⟩).trace,
         (decodeLoop ext rng temp (ext.sliceEnc encAll s) (List.range' 1 Lv)
            ⟨buf, st.cache, st.ctr, st.trace, st.plog⟩).plog,
         st.seqs ++ [((decodeLoop ext rng temp (ext.sliceEnc encAll s) (List.range' 1 Lv)
            ⟨buf, st.cache, st.ctr, st.trace, st.plog⟩).buf.drop 1).map ext.voc.get_tok]⟩ := by
  conv_lhs => unfold bOuter
  dsimp only
  rw [hs]

/-- Each iteration of the `sample_batch` outer loop adds exactly `Lv`
decoder invocations. -/
lemma bOuter_trace_length (Lv : Nat) (encAll : E) (num : Nat) (buf0 : List Nat) :
    ∀ (idxs : List Nat) (st : BOState E K), (∀ s ∈ idxs, s < num) →
      (bOuter ext rng temp Lv encAll (some (List.replicate num buf0)) idxs st).1.trace.length =
        st.trace.length + idxs.length * Lv := by
  intro idxs
  induction idxs with
  | nil => intro st _; simp [bOuter_nil]
  | cons s rest ih =>
    intro st hmem
    have hs : (List.replicate num buf0).get? s = some buf0 :=
      get?_replicate num s buf0 (hmem s (by simp))
    rw [bOuter_cons_some ext rng temp Lv encAll _ _ s rest st hs,
      ih _ (fun t ht => hmem t (by simp [ht]))]
    dsimp only
    rw [decodeLoop_trace_length]
    dsimp only
    simp only [List.length_cons, List.length_range']
    ring

/-! ### `b2Step` loop invariants -/

lemma b2Step_trace_length (e : E) (st : B2State E K) (i : Nat) :
    (b2Step ext rng temp e st i).trace.length = st.trace.length + 1 := by
  unfold b2Step
  dsimp only
  simp

lemma b2Loop_trace_length (e : E) :
    ∀ (idxs : List Nat) (st : B2State E K),
      (idxs.foldl (b2Step ext rng temp e) st).trace.length = st.trace.length + idxs.length := by
  intro idxs
  induction idxs with
  | nil => intro st; rfl
  | cons i rest ih =>
    intro st
    show ((rest.foldl (b2Step ext rng temp e) (b2Step ext rng temp e st i))).trace.length = _
    rw [ih, b2Step_trace_length]
    simp only [List.length_cons]
    omega

/-- `batchRun` with a supplied device and a successful initialization,
reduced to its outer loop. -/
lemma batchRun_dev_ok (coords : List C) (num : Nat) (ps : Option (List Tok))
    (conf : Option Cf) (d : Dv) (buf0 : List Nat)
    (hinit : initTokens ext.voc coords.length ps = .ok buf0) :
    batchRun ext rng coords num ps temp conf (some d) =
      (let r := bOuter ext rng temp coords.length
          (ext.encode (ext.convert (List.replicate num (coords, conf)) (some d)))
          (some (List.replicate num buf0)) (List.range num) ⟨ext.emptyCache, 0, [], [], []⟩;
       match r.2 with
       | some er => ⟨1, r.1.trace, r.1.plog, .error er, r.1.cache⟩
       | none => ⟨1, r.1.trace, r.1.plog, .ok r.1.seqs, r.1.cache⟩) := by
  rw [batchRun_ok ext rng temp coords num ps conf (some d) buf0 hinit]
  rfl

lemma batchRun_trace_dev (coords : List C) (num : Nat) (ps : Option (List Tok))
    (conf : Option Cf) (d : Dv) (buf0 : List Nat)
    (hinit : initTokens ext.voc coords.length ps = .ok buf0) :
    (batchRun ext rng coords num ps temp conf (some d)).trace =
      (bOuter ext rng temp coords.length
          (ext.encode (ext.convert (List.replicate num (coords, conf)) (some d)))
          (some (List.replicate num buf0)) (List.range num) ⟨ext.emptyCache, 0, [], [], []⟩).1.trace := by
  rw [batchRun_dev_ok ext rng temp coords num ps conf d buf0 hinit]
  dsimp only
  cases hb : (bOuter ext rng temp coords.length
      (ext.encode (ext.convert (List.replicate num (coords, conf)) (some d)))
      (some (List.replicate num buf0)) (List.range num) ⟨ext.emptyCache, 0, [], [], []⟩).2 with
  | none => rfl
  | some er => rfl

end GVPSample

namespace GVPSample

variable {C Cf Dv BI E K : Type}

/-- C6: in every sampling call the decoder step is executed for every
position `i = 1..L` — exactly `L` decoder invocations per sequence decode
loop (`L` per sample in `sample_batch`, `L` batched invocations in
`sample_batch2`), for every partial sequence, i.e. regardless of how many
positions are caller-fixed (a fixed position still triggers its decoder
step; only the multinomial draw/write is skipped for it). -/
theorem C6_decoder_step_every_position (ext : Ext C Cf Dv BI E K)
    (rng : Nat → List ℚ → Nat) (coords : List C) (num : Nat) (ps : Option (List Tok))
    (temp : ℚ) (conf : Option Cf) (d : Dv) (buf0 : List Nat)
    (hinit : initTokens ext.voc coords.length ps = .ok buf0) :
    (sampleRun ext rng coords ps temp conf (some d)).trace.length = coords.length ∧
    (batchRun ext rng coords num ps temp conf (some d)).trace.length = num * coords.length ∧
    (batch2Run ext rng coords num ps temp conf (some d)).trace.length = coords.length := by
  refine ⟨?_, ?_, ?_⟩
  · rw [sampleRun_ok ext rng temp coords ps conf (some d) buf0 hinit]
    dsimp only
    rw [decodeLoop_trace_length]
    simp [List.length_range']
  · rw [batchRun_trace_dev ext rng temp coords num ps conf d buf0 hinit,
      bOuter_trace_length ext rng temp coords.length _ num buf0 (List.range num) _
        (fun s hs => List.mem_range.mp hs)]
    simp [List.length_range]
  · rw [batch2Run_ok ext rng temp coords num ps conf (some d) buf0 hinit]
    dsimp only
    rw [b2Loop_trace_length]
    simp [List.length_range']

/-- Witness for C6: two samples of length 1 on a supplied device. -/
theorem C6_witness :
    initTokens ext0.voc ([()] : List Unit).length none = .ok [3, 2] ∧
    ((sampleRun ext0 rng0 [()] none 1 none (some ())).trace.length = 1 ∧
     (batchRun ext0 rng0 [()] 2 none 1 none (some ())).trace.length = 2 * 1 ∧
     (batch2Run ext0 rng0 [()] 2 none 1 none (some ())).trace.length = 1) :=
  ⟨by decide, C6_decoder_step_every_position ext0 rng0 [()] 2 none 1 none () [3, 2] (by decide)⟩

end GVPSample

namespace GVPSample

variable {C Cf Dv BI E K : Type}
variable (ext : Ext C Cf Dv BI E K) (rng : Nat → List ℚ → Nat) (temp : ℚ)

lemma b2Step_trace (e : E) (st : B2State E K) (i : Nat) :
    (b2Step ext rng temp e st i).trace =
      st.trace ++ [⟨st.bufs.map (fun b => b.take i), e, st.caches,
        (decStepBatch ext (st.bufs.map (fun b => b.take i)) e st.caches).2⟩] := rfl

/-- Every batched decoder invocation recorded by the `sample_batch2` loop
received `e` as its encoder-output argument. -/
lemma b2Loop_encArg (e : E) :
    ∀ (idxs : List Nat) (st : B2State E K) (dc : DecCall2 E K),
      dc ∈ (idxs.foldl (b2Step ext rng temp e) st).trace →
      dc ∈ st.trace ∨ dc.encArg = e := by
  intro idxs
  induction idxs with
  | nil => intro st dc h; exact .inl h
  | cons i rest ih =>
    intro st dc h
    have h2 := ih (b2Step ext rng temp e st i) dc h
    rcases h2 with hmem | henc
    · rw [b2Step_trace] at hmem
      rcases List.mem_append.mp hmem with hmem' | hone
      · exact .inl hmem'
      · simp at hone
        subst hone
        exact .inr rfl
    · exact .inr henc

/-- Every decoder invocation recorded by the `sample_batch` outer loop
received some sample's slice of the batched encoder output. -/
lemma bOuter_encArg (Lv : Nat) (encAll : E) (num : Nat) (buf0 : List Nat) :
    ∀ (idxs : List Nat) (st : BOState E K) (dc : DecCall E K), (∀ s ∈ idxs, s < num) →
      dc ∈ (bOuter ext rng temp Lv encAll (some (List.replicate num buf0)) idxs st).1.trace →
      dc ∈ st.trace ∨ ∃ s, s < num ∧ dc.encArg = ext.sliceEnc encAll s := by
  intro idxs
  induction idxs with
  | nil => intro st dc _ h; exact .inl h
  | cons s rest ih =>
    intro st dc hmem h
    have hs : (List.replicate num buf0).get? s = some buf0 :=
      get?_replicate num s buf0 (hmem s (by simp))
    rw [bOuter_cons_some ext rng temp Lv encAll _ _ s rest st hs] at h
    rcases ih _ dc (fun t ht => hmem t (by simp [ht])) h with hmem2 | hex
    · dsimp only at hmem2
      rcases decodeLoop_encArg ext rng temp (ext.sliceEnc encAll s) (List.range' 1 Lv)
          ⟨buf0, st.cache, st.ctr, st.trace, st.plog⟩ dc hmem2 with hmem3 | henc
      · exact .inl hmem3
      · exact .inr ⟨s, hmem s (by simp), henc⟩
    · exact .inr hex

/-- The `sample_batch` outer loop keeps the decoder-invocation trace
chained: each invocation receives exactly the cache returned by the
invocation before it, across sample boundaries. -/
lemma bOuter_chain (Lv : Nat) (encAll : E) (ab : Option (List (List Nat))) (k0 : K) :
    ∀ (idxs : List Nat) (st : BOState E K),
      chainedFrom k0 st.trace → endCache k0 st.trace = st.cache →
      chainedFrom k0 (bOuter ext rng temp Lv encAll ab idxs st).1.trace ∧
        endCache k0 (bOuter ext rng temp Lv encAll ab idxs st).1.trace =
          (bOuter ext rng temp Lv encAll ab idxs st).1.cache := by
  intro idxs
  induction idxs with
  | nil => intro st h1 h2; exact ⟨h1, h2⟩
  | cons s rest ih =>
    intro st h1 h2
    cases ab with
    | none => exact ⟨h1, h2⟩
    | some bl =>
      cases hget : bl.get? s with
      | none =>
        unfold bOuter
        dsimp only
        rw [hget]
        exact ⟨h1, h2⟩
      | some buf =>
        rw [bOuter_cons_some ext rng temp Lv encAll bl buf s rest st hget]
        have hloop := decodeLoop_chain ext rng temp (ext.sliceEnc encAll s) k0
          (List.range' 1 Lv) ⟨buf, st.cache, st.ctr, st.trace, st.plog⟩ h1 h2
        exact ih _ hloop.1 hloop.2

lemma batchRun_encCalls_dev (coords : List C) (num : Nat) (ps : Option (List Tok))
    (conf : Option Cf) (d : Dv) (buf0 : List Nat)
    (hinit : initTokens ext.voc coords.length ps = .ok buf0) :
    (batchRun ext rng coords num ps temp conf (some d)).encCalls = 1 := by
  rw [batchRun_dev_ok ext rng temp coords num ps conf d buf0 hinit]
  dsimp only
  cases hb : (bOuter ext rng temp coords.length
      (ext.encode (ext.convert (List.replicate num (coords, conf)) (some d)))
      (some (List.replicate num buf0)) (List.range num) ⟨ext.emptyCache, 0, [], [], []⟩).2 with
  | none => rfl
  | some er => rfl

end GVPSample

namespace GVPSample

variable {C Cf Dv BI E K : Type}

/-- C7: in every sampling call of each strategy, the structure encoder is
invoked exactly once, before the decode loop, and is never re-invoked inside
the per-step loop: every decoder invocation's encoder-output argument is
(a per-sample slice of) the one encoder output computed before the loop. -/
theorem C7_encoder_invoked_once (ext : Ext C Cf Dv BI E K)
    (rng : Nat → List ℚ → Nat) (coords : List C) (num : Nat) (ps : Option (List Tok))
    (temp : ℚ) (conf : Option Cf) (d : Dv) (buf0 : List Nat)
    (hinit : initTokens ext.voc coords.length ps = .ok buf0) :
    ((sampleRun ext rng coords ps temp conf (some d)).encCalls = 1 ∧
      ∀ dc ∈ (sampleRun ext rng coords ps temp conf (some d)).trace,
        dc.encArg = ext.encode (ext.convert [(coords, conf)] (some d))) ∧
    ((batchRun ext rng coords num ps temp conf (some d)).encCalls = 1 ∧
      ∀ dc ∈ (batchRun ext rng coords num ps temp conf (some d)).trace,
        ∃ s, s < num ∧ dc.encArg =
          ext.sliceEnc (ext.encode (ext.convert (List.replicate num (coords, conf)) (some d))) s) ∧
    ((batch2Run ext rng coords num ps temp conf (some d)).encCalls = 1 ∧
      ∀ dc ∈ (batch2Run ext rng coords num ps temp conf (some d)).trace,
        dc.encArg = ext.encode (ext.convert (List.replicate num (coords, conf)) (some d))) := by
  refine ⟨⟨?_, ?_⟩, ⟨?_, ?_⟩, ?_, ?_⟩
  · rw [sampleRun_ok ext rng temp coords ps conf (some d) buf0 hinit]
  · intro dc hdc
    rw [sampleRun_ok ext rng temp coords ps conf (some d) buf0 hinit] at hdc
    dsimp only at hdc
    rcases decodeLoop_encArg ext rng temp _ (List.range' 1 coords.length)
        ⟨buf0, ext.emptyCache, 0, [], []⟩ dc hdc with hmem | henc
    · simp at hmem
    · exact henc
  · exact batchRun_encCalls_dev ext rng temp coords num ps conf d buf0 hinit
  · intro dc hdc
    rw [batchRun_trace_dev ext rng temp coords num ps conf d buf0 hinit] at hdc
    rcases bOuter_encArg ext rng temp coords.length _ num buf0 (List.range num) _ dc
        (fun s hs => List.mem_range.mp hs) hdc with hmem | hex
    · simp at hmem
    · exact hex
  · rw [batch2Run_ok ext rng temp coords num ps conf (some d) buf0 hinit]
  · intro dc hdc
    rw [batch2Run_ok ext rng temp coords num ps conf (some d) buf0 hinit] at hdc
    dsimp only at hdc
    rcases b2Loop_encArg ext rng temp _ (List.range' 1 coords.length) _ dc hdc with hmem | henc
    · simp at hmem
    · exact henc

/-- Witness for C7: two samples of length 1 on a supplied device. -/
theorem C7_witness :
    initTokens ext0.voc ([()] : List Unit).length none = .ok [3, 2] ∧
    (((sampleRun ext0 rng0 [()] none 1 none (some ())).encCalls = 1 ∧
      ∀ dc ∈ (sampleRun ext0 rng0 [()] none 1 none (some ())).trace,
        dc.encArg = ext0.encode (ext0.convert [([()], none)] (some ()))) ∧
     ((batchRun ext0 rng0 [()] 2 none 1 none (some ())).encCalls = 1 ∧
      ∀ dc ∈ (batchRun ext0 rng0 [()] 2 none 1 none (some ())).trace,
        ∃ s, s < 2 ∧ dc.encArg =
          ext0.sliceEnc (ext0.encode (ext0.convert (List.replicate 2 ([()], none)) (some ()))) s) ∧
     ((batch2Run ext0 rng0 [()] 2 none 1 none (some ())).encCalls = 1 ∧
      ∀ dc ∈ (batch2Run ext0 rng0 [()] 2 none 1 none (some ())).trace,
        dc.encArg = ext0.encode (ext0.convert (List.replicate 2 ([()], none)) (some ())))) :=
  ⟨by decide, C7_encoder_invoked_once ext0 rng0 [()] 2 none 1 none () [3, 2] (by decide)⟩

/-- C3: in `sample_batch` one and the same incremental cache is threaded
through every decoder invocation of all `num_samples` per-sample loops: the
first invocation receives the once-created empty cache, every later
invocation (including the first invocation of each subsequent sample's
loop) receives exactly the cache returned by the invocation before it, and
all `num_samples * L` invocations belong to this single chain — the cache
is never reset or re-keyed between samples. -/
theorem C3_batch_shared_cache_never_reset (ext : Ext C Cf Dv BI E K)
    (rng : Nat → List ℚ → Nat) (coords : List C) (num : Nat) (ps : Option (List Tok))
    (temp : ℚ) (conf : Option Cf) (d : Dv) (buf0 : List Nat)
    (hinit : initTokens ext.voc coords.length ps = .ok buf0) :
    chainedFrom ext.emptyCache (batchRun ext rng coords num ps temp conf (some d)).trace ∧
    (batchRun ext rng coords num ps temp conf (some d)).trace.length = num * coords.length := by
  constructor
  · rw [batchRun_trace_dev ext rng temp coords num ps conf d buf0 hinit]
    exact (bOuter_chain ext rng temp coords.length _ _ ext.emptyCache (List.range num)
      ⟨ext.emptyCache, 0, [], [], []⟩ trivial rfl).1
  · rw [batchRun_trace_dev ext rng temp coords num ps conf d buf0 hinit,
      bOuter_trace_length ext rng temp coords.length _ num buf0 (List.range num) _
        (fun s hs => List.mem_range.mp hs)]
    simp [List.length_range]

/-- Witness for C3: two samples of length 1 on a supplied device. -/
theorem C3_witness :
    initTokens ext0.voc ([()] : List Unit).length none = .ok [3, 2] ∧
    (chainedFrom ext0.emptyCache (batchRun ext0 rng0 [()] 2 none 1 none (some ())).trace ∧
     (batchRun ext0 rng0 [()] 2 none 1 none (some ())).trace.length = 2 * 1) :=
  ⟨by decide, C3_batch_shared_cache_never_reset ext0 rng0 [()] 2 none 1 none () [3, 2] (by decide)⟩

/-- C8: a partial sequence longer than `L`, or containing a symbol unknown
to the vocabulary, makes every strategy's call fail with a lookup or bounds
error raised during token-buffer initialization — before any decoding step
(the trace is empty, and even the encoder never runs). -/
theorem C8_bad_partial_fails_before_decoding (ext : Ext C Cf Dv BI E K)
    (rng : Nat → List ℚ → Nat) (coords : List C) (num : Nat) (l : List Tok)
    (temp : ℚ) (conf : Option Cf) (dev : Option Dv)
    (hbad : coords.length < l.length ∨ ∃ c ∈ l, ext.voc.get_idx c = none) :
    ∃ e, ((∃ c, e = SErr.lookupError c) ∨ e = SErr.indexError) ∧
      initTokens ext.voc coords.length (some l) = .error e ∧
      sampleRun ext rng coords (some l) temp conf dev = ⟨0, [], [], .error e, ext.emptyCache⟩ ∧
      batchRun ext rng coords num (some l) temp conf dev = ⟨0, [], [], .error e, ext.emptyCache⟩ ∧
      batch2Run ext rng coords num (some l) temp conf dev = ⟨0, [], [], .error e⟩ := by
  have hlenbuf : ((List.replicate (1 + coords.length) ext.voc.mask_idx).set
      0 ext.voc.cath_idx).length = 1 + coords.length := by simp
  obtain ⟨e, hwp, hshape⟩ := writePartial_fail ext.voc l 1 _
    (by rw [hlenbuf]; omega)
    (by
      rcases hbad with hb | hex
      · left; rw [hlenbuf]; omega
      · right; exact hex)
  have hinit : initTokens ext.voc coords.length (some l) = .error e := hwp
  exact ⟨e, hshape, hinit,
    sampleRun_err ext rng temp coords (some l) conf dev e hinit,
    batchRun_err ext rng temp coords num (some l) conf dev e hinit,
    batch2Run_err ext rng temp coords num (some l) conf dev e hinit⟩

/-- Witness for C8: a 2-symbol partial sequence against a length-1 input. -/
theorem C8_witness :
    (([()] : List Unit).length < (["A", "A"] : List Tok).length ∨
      ∃ c ∈ (["A", "A"] : List Tok), ext0.voc.get_idx c = none) ∧
    ∃ e, ((∃ c, e = SErr.lookupError c) ∨ e = SErr.indexError) ∧
      initTokens ext0.voc ([()] : List Unit).length (some ["A", "A"]) = .error e ∧
      sampleRun ext0 rng0 [()] (some ["A", "A"]) 1 none none = ⟨0, [], [], .error e, ext0.emptyCache⟩ ∧
      batchRun ext0 rng0 [()] 2 (some ["A", "A"]) 1 none none = ⟨0, [], [], .error e, ext0.emptyCache⟩ ∧
      batch2Run ext0 rng0 [()] 2 (some ["A", "A"]) 1 none none = ⟨0, [], [], .error e⟩ :=
  ⟨by decide,
    C8_bad_partial_fails_before_decoding ext0 rng0 [()] 2 ["A", "A"] 1 none none (by decide)⟩

/-- C9: `sample_batch` with the default `device = None` raises the
undefined-name error (`all_sampled_tokens` is only assigned inside the
device-guarded branch) in the first outer-loop iteration, before any
sequence is produced and before any decoder invocation, for every
`num_samples ≥ 1`. -/
theorem C9_batch_default_device_name_error (ext : Ext C Cf Dv BI E K)
    (rng : Nat → List ℚ → Nat) (coords : List C) (num : Nat) (ps : Option (List Tok))
    (temp : ℚ) (conf : Option Cf) (buf0 : List Nat)
    (hnum : 1 ≤ num) (hinit : initTokens ext.voc coords.length ps = .ok buf0) :
    (batchRun ext rng coords num ps temp conf none).result = .error .nameError ∧
    (batchRun ext rng coords num ps temp conf none).trace = [] := by
  rw [batchRun_ok ext rng temp coords num ps conf none buf0 hinit]
  dsimp only
  obtain ⟨m, rfl⟩ : ∃ m, num = m + 1 := ⟨num - 1, by omega⟩
  have hb : (if (none : Option Dv).isSome = true
      then some (List.replicate (m + 1) buf0) else none) = (none : Option (List (List Nat))) := rfl
  rw [hb, List.range_succ_eq_map, bOuter_cons_none]
  exact ⟨rfl, rfl⟩

/-- Witness for C9: one sample, length-1 input, no device. -/
theorem C9_witness :
    1 ≤ 1 ∧ initTokens ext0.voc ([()] : List Unit).length none = .ok [3, 2] ∧
    ((batchRun ext0 rng0 [()] 1 none 1 none none).result = .error .nameError ∧
     (batchRun ext0 rng0 [()] 1 none 1 none none).trace = []) :=
  ⟨by decide, by decide,
    C9_batch_default_device_name_error ext0 rng0 [()] 1 none 1 none [3, 2] (by decide) (by decide)⟩

/-- C4 counterexample: a call with temperature `−1 ≤ 0` does not fail at
all — it returns a sequence, and the decoder has been invoked (the trace is
nonempty).  The claim that every call with temperature `≤ 0` raises before
any decoder invocation is therefore false of the code. -/
theorem C4_counterexample :
    (-1 : ℚ) ≤ 0 ∧
    (sampleRun ext0 rng0 [()] none (-1) none none).result = .ok [["A"]] ∧
    (sampleRun ext0 rng0 [()] none (-1) none none).trace.length = 1 := by
  refine ⟨by decide, by decide, by decide⟩

/-- C4 amended: the sampler never validates the temperature, so it is not
the case that every call with temperature `≤ 0` fails before a decoder
invocation: for every temperature `T < 0` and successful initialization,
the call does not fail at all — all `L` decoder invocations run and a
sequence is returned (the temperature is first used only to scale logits
inside the loop).  The behavior at `T = 0` rests on float division by zero
and is outside this exact-arithmetic embedding; nothing is asserted of it. -/
theorem C4_amended_no_temperature_validation (ext : Ext C Cf Dv BI E K)
    (rng : Nat → List ℚ → Nat) (coords : List C) (ps : Option (List Tok))
    (temp : ℚ) (conf : Option Cf) (dev : Option Dv) (buf0 : List Nat)
    (htemp : temp < 0) (hinit : initTokens ext.voc coords.length ps = .ok buf0) :
    ∃ out, (sampleRun ext rng coords ps temp conf dev).result = .ok [out] ∧
      (sampleRun ext rng coords ps temp conf dev).trace.length = coords.length := by
  rw [sampleRun_ok ext rng temp coords ps conf dev buf0 hinit]
  refine ⟨_, rfl, ?_⟩
  dsimp only
  rw [decodeLoop_trace_length]
  simp [List.length_range']

/-- Witness for C4's amended statement at temperature −1. -/
theorem C4_amended_witness :
    (-1 : ℚ) < 0 ∧ initTokens ext0.voc ([()] : List Unit).length none = .ok [3, 2] ∧
    ∃ out, (sampleRun ext0 rng0 [()] none (-1) none none).result = .ok [out] ∧
      (sampleRun ext0 rng0 [()] none (-1) none none).trace.length = 1 :=
  ⟨by decide, by decide,
    C4_amended_no_temperature_validation ext0 rng0 [()] none (-1) none none [3, 2]
      (by decide) (by decide)⟩

/-- Setting a list position to the value it already holds is the identity. -/
lemma set_getD_eq_self (l : List Nat) (i v : Nat) (h : l.getD i 0 = v) :
    l.set i v = l := by
  induction l generalizing i with
  | nil => rfl
  | cons a t ih =>
    cases i with
    | zero =>
      have : a = v := h
      simp [List.set, this]
    | succ m =>
      have h2 : t.getD m 0 = v := h
      simp [List.set, ih m h2]

/-- Appending the mask symbol to the partial sequence leaves the
initialized token buffer unchanged: the appended write stores the mask
index into a position that already holds the mask index. -/
lemma initTokens_append_mask (voc : Vocab) (L : Nat) (l : List Tok)
    (hmask : voc.get_idx "<mask>" = some voc.mask_idx) (hlen : l.length < L) :
    initTokens voc L (some (l ++ ["<mask>"])) = initTokens voc L (some l) := by
  show writePartial voc (l ++ ["<mask>"]) 1 _ = writePartial voc l 1 _
  cases hwp : writePartial voc l 1
      ((List.replicate (1 + L) voc.mask_idx).set 0 voc.cath_idx) with
  | error e => rw [writePartial_append_err voc l ["<mask>"] 1 _ e hwp]
  | ok b =>
    rw [writePartial_append_ok voc l ["<mask>"] 1 _ b hwp]
    have hblen : b.length = 1 + L := by
      have := writePartial_length voc l 1 _ b hwp
      simpa using this
    have hbpos : b.getD (1 + l.length) 0 = voc.mask_idx := by
      have hhi := writePartial_hi voc l 1 _ b hwp (1 + l.length) (by omega)
      rw [hhi]
      exact initBase_getD L voc.mask_idx voc.cath_idx (1 + l.length) (by omega) (by omega)
    rw [writePartial_cons, hmask]
    dsimp only
    rw [if_pos (by omega : 1 + l.length < b.length)]
    show Except.ok (b.set (1 + l.length) voc.mask_idx) = _
    rw [set_getD_eq_self b (1 + l.length) voc.mask_idx hbpos]

/-- C10: a partial-sequence position supplying the mask symbol `<mask>` is
not caller-fixed: the three strategies behave exactly as if the position had
not been supplied at all (fixedness is decided at step time by comparing the
buffer value against the mask index), so such a position is resampled like
an unspecified one. -/
theorem C10_mask_symbol_position_resampled (ext : Ext C Cf Dv BI E K)
    (rng : Nat → List ℚ → Nat) (coords : List C) (num : Nat) (l : List Tok)
    (temp : ℚ) (conf : Option Cf) (dev : Option Dv)
    (hmask : ext.voc.get_idx "<mask>" = some ext.voc.mask_idx)
    (hlen : l.length < coords.length) :
    sampleRun ext rng coords (some (l ++ ["<mask>"])) temp conf dev =
      sampleRun ext rng coords (some l) temp conf dev ∧
    batchRun ext rng coords num (some (l ++ ["<mask>"])) temp conf dev =
      batchRun ext rng coords num (some l) temp conf dev ∧
    batch2Run ext rng coords num (some (l ++ ["<mask>"])) temp conf dev =
      batch2Run ext rng coords num (some l) temp conf dev := by
  have hinitEq := initTokens_append_mask ext.voc coords.length l hmask hlen
  refine ⟨?_, ?_, ?_⟩
  · unfold sampleRun
    dsimp only
    rw [hinitEq]
  · unfold batchRun
    dsimp only
    rw [hinitEq]
  · unfold batch2Run
    dsimp only
    rw [hinitEq]

/-- Witness for C10: a supplied `<mask>` symbol on a length-2 input after
one fixed symbol. -/
theorem C10_witness :
    ext0.voc.get_idx "<mask>" = some ext0.voc.mask_idx ∧
    (["A"] : List Tok).length < ([(), ()] : List Unit).length ∧
    (sampleRun ext0 rng0 [(), ()] (some (["A"] ++ ["<mask>"])) 1 none none =
       sampleRun ext0 rng0 [(), ()] (some ["A"]) 1 none none ∧
     batchRun ext0 rng0 [(), ()] 2 (some (["A"] ++ ["<mask>"])) 1 none none =
       batchRun ext0 rng0 [(), ()] 2 (some ["A"]) 1 none none ∧
     batch2Run ext0 rng0 [(), ()] 2 (some (["A"] ++ ["<mask>"])) 1 none none =
       batch2Run ext0 rng0 [(), ()] 2 (some ["A"]) 1 none none) :=
  ⟨by decide, by decide,
    C10_mask_symbol_position_resampled ext0 rng0 [(), ()] 2 ["A"] 1 none none
      (by decide) (by decide)⟩

end GVPSample

namespace GVPSample

variable {C Cf Dv BI E K : Type}
variable (ext : Ext C Cf Dv BI E K) (rng : Nat → List ℚ → Nat) (temp : ℚ)

/-- Reading position `k` of the symbols extracted from buffer positions
`1..`: it is the symbol of the buffer value at position `k + 1`. -/
lemma seq_get_of_buf (voc : Vocab) (b : List Nat) (k v : Nat) (c : Tok)
    (hb : b.getD (k + 1) 0 = v) (hlen : k + 1 < b.length) (htok : voc.get_tok v = c) :
    ((b.drop 1).map voc.get_tok).get? k = some c := by
  have hget : b.get? (k + 1) = some v := by
    rw [get?_of_getD _ _ hlen, hb]
  rw [List.get?_map, List.get?_drop]
  rw [Nat.add_comm 1 k, hget]
  simp [htok]

/-- Any row produced by the `sample_batch2` row loop is either its input
row unchanged, or its input row written at position `i` — and in the latter
case the input row held the mask index at `i`. -/
lemma b2Rows_mem (i : Nat) :
    ∀ (z : List (List Nat × List ℚ)) (ctr : Nat) (b' : List Nat),
      b' ∈ (b2Rows ext rng i z ctr).1 →
      ∃ bp, bp ∈ z ∧
        (b' = bp.1 ∨ (bp.1.getD i 0 = ext.voc.mask_idx ∧ ∃ dv, b' = bp.1.set i dv)) := by
  intro z
  induction z with
  | nil =>
    intro ctr b' h
    simp [b2Rows] at h
  | cons p rest ih =>
    intro ctr b' h
    obtain ⟨buf, probs⟩ := p
    unfold b2Rows at h
    split at h
    · rename_i hmaskb
      dsimp only at h
      rcases List.mem_cons.mp h with heq | hmem
      · exact ⟨(buf, probs), by simp, .inr ⟨hmaskb, _, heq⟩⟩
      · obtain ⟨bp, hbz, hc⟩ := ih _ b' hmem
        exact ⟨bp, by simp [hbz], hc⟩
    · dsimp only at h
      rcases List.mem_cons.mp h with heq | hmem
      · exact ⟨(buf, probs), by simp, .inl heq⟩
      · obtain ⟨bp, hbz, hc⟩ := ih _ b' hmem
        exact ⟨bp, by simp [hbz], hc⟩

/-- One vectorized decode step preserves, in every row, a non-mask value at
any position together with the row length. -/
lemma b2Step_bufs_inv (e : E) (k1 v n : Nat) (hvm : v ≠ ext.voc.mask_idx)
    (st : B2State E K) (i : Nat)
    (hinv : ∀ b ∈ st.bufs, b.getD k1 0 = v ∧ b.length = n) :
    ∀ b ∈ (b2Step ext rng temp e st i).bufs, b.getD k1 0 = v ∧ b.length = n := by
  intro b hb
  have hb2 : b ∈ (b2Rows ext rng i
      (st.bufs.zip ((((decStepBatch ext (st.bufs.map (fun x => x.take i)) e st.caches).1.map
        (fun row => row.map (fun x => x / temp))).map ext.softmaxFn))) st.ctr).1 := hb
  obtain ⟨bp, hbz, hcase⟩ := b2Rows_mem ext rng i _ _ b hb2
  have hbp1 : bp.1 ∈ st.bufs := (List.of_mem_zip hbz).1
  obtain ⟨hv1, hl1⟩ := hinv bp.1 hbp1
  rcases hcase with rfl | ⟨hmaskb, dv, rfl⟩
  · exact ⟨hv1, hl1⟩
  · have hne : i ≠ k1 := by
      intro he
      rw [he] at hmaskb
      rw [hv1] at hmaskb
      exact hvm hmaskb
    exact ⟨by rw [getD_set_ne _ _ _ _ hne]; exact hv1, by simp [hl1]⟩

lemma b2Loop_bufs_inv (e : E) (k1 v n : Nat) (hvm : v ≠ ext.voc.mask_idx) :
    ∀ (idxs : List Nat) (st : B2State E K),
      (∀ b ∈ st.bufs, b.getD k1 0 = v ∧ b.length = n) →
      ∀ b ∈ (idxs.foldl (b2Step ext rng temp e) st).bufs, b.getD k1 0 = v ∧ b.length = n := by
  intro idxs
  induction idxs with
  | nil => intro st h; exact h
  | cons i rest ih =>
    intro st h
    exact ih _ (b2Step_bufs_inv ext rng temp e k1 v n hvm st i h)

/-- Every sequence returned by the extraction loop comes from one of the
rows of the final token buffer. -/
lemma extractSeqs_mem (voc : Vocab) (bufs : List (List Nat)) :
    ∀ (idxs : List Nat) (out : List (List Tok)),
      extractSeqs voc bufs idxs = .ok out →
      ∀ q ∈ out, ∃ b ∈ bufs, q = (b.drop 1).map voc.get_tok := by
  intro idxs
  induction idxs with
  | nil => intro out h q hq; cases h; simp at hq
  | cons s rest ih =>
    intro out h q hq
    unfold extractSeqs at h
    split at h
    · cases h
    · rename_i b hget
      split at h
      · cases h
      · rename_i tl htl
        cases h
        rcases List.mem_cons.mp hq with rfl | hmem
        · exact ⟨b, List.get?_mem hget, rfl⟩
        · exact ih tl htl q hmem

/-- Every sequence appended by the `sample_batch` outer loop is produced by
an inner decode loop started from the cloned initial buffer `buf0` (with
some cache, counter, trace and log state). -/
lemma bOuter_seqs (Lv : Nat) (encAll : E) (num : Nat) (buf0 : List Nat)
    (P : List Tok → Prop)
    (hP : ∀ (s : Nat) (kc : K) (c0 : Nat) (tr : List (DecCall E K))
        (pl : List (List ℚ × List ℚ)),
      P (((decodeLoop ext rng temp (ext.sliceEnc encAll s) (List.range' 1 Lv)
        ⟨buf0, kc, c0, tr, pl⟩).buf.drop 1).map ext.voc.get_tok)) :
    ∀ (idxs : List Nat) (st : BOState E K), (∀ q ∈ st.seqs, P q) →
      ∀ q ∈ (bOuter ext rng temp Lv encAll (some (List.replicate num buf0)) idxs st).1.seqs,
        P q := by
  intro idxs
  induction idxs with
  | nil => intro st h; exact h
  | cons s rest ih =>
    intro st h
    cases hget : (List.replicate num buf0).get? s with
    | none =>
      unfold bOuter
      dsimp only
      rw [hget]
      exact h
    | some buf =>
      have hbuf : buf = buf0 := List.eq_of_mem_replicate (List.get?_mem hget)
      subst hbuf
      rw [bOuter_cons_some ext rng temp Lv encAll _ _ s rest st hget]
      refine ih _ ?_
      intro q hq
      rcases List.mem_append.mp hq with hmem | hone
      · exact h q hmem
      · have heq := List.mem_singleton.mp hone
        subst heq
        exact hP s st.cache st.ctr st.trace st.plog

end GVPSample

namespace GVPSample

variable {C Cf Dv BI E K : Type}

/-- C1 counterexample: the supplied symbol `<mask>` at position 1 is
written into the token buffer at initialization (the buffer is `[3, 2]`,
i.e. start token then the mask index 2 = `get_idx "<mask>"`), yet the
returned output holds `"A"` — not `"<mask>"` — at that position: the
position was overwritten during the decode loop, so a supplied symbol that
is written at initialization is not always preserved verbatim. -/
theorem C1_counterexample :
    voc0.get_idx "<mask>" = some 2 ∧
    initTokens voc0 ([()] : List Unit).length (some ["<mask>"]) = .ok [3, 2] ∧
    (sampleRun ext0 rng0 [()] (some ["<mask>"]) 1 none none).result = .ok [["A"]] ∧
    ("A" : Tok) ≠ "<mask>" := by
  refine ⟨by decide, by decide, by decide, by decide⟩

/-- C1 amended: for every sampling call of any of the three strategies,
every position `1..len(partial_seq)` whose supplied symbol's vocabulary
index differs from the mask index appears verbatim at that same position in
every returned output, and is never overwritten during the decode loop
(a position whose supplied symbol is the mask symbol itself is instead
resampled, as the counterexample shows). -/
theorem C1_amended_nonmask_supplied_positions_verbatim (ext : Ext C Cf Dv BI E K)
    (rng : Nat → List ℚ → Nat) (coords : List C) (num : Nat) (l : List Tok)
    (temp : ℚ) (conf : Option Cf) (dev : Option Dv) (k : Nat) (c : Tok) (v : Nat)
    (hk : l.get? k = some c) (hv : ext.voc.get_idx c = some v)
    (hvm : v ≠ ext.voc.mask_idx) (htok : ext.voc.get_tok v = c) :
    (∀ out, (sampleRun ext rng coords (some l) temp conf dev).result = .ok out →
      ∀ q ∈ out, q.get? k = some c) ∧
    (∀ out, (batchRun ext rng coords num (some l) temp conf dev).result = .ok out →
      ∀ q ∈ out, q.get? k = some c) ∧
    (∀ out, (batch2Run ext rng coords num (some l) temp conf dev).result = .ok out →
      ∀ q ∈ out, q.get? k = some c) := by
  cases hinit : initTokens ext.voc coords.length (some l) with
  | error e =>
    refine ⟨?_, ?_, ?_⟩
    · intro out hout
      rw [sampleRun_err ext rng temp coords (some l) conf dev e hinit] at hout
      cases hout
    · intro out hout
      rw [batchRun_err ext rng temp coords num (some l) conf dev e hinit] at hout
      cases hout
    · intro out hout
      rw [batch2Run_err ext rng temp coords num (some l) conf dev e hinit] at hout
      cases hout
  | ok buf0 =>
    have hklen : k < l.length := by
      rcases List.get?_eq_some.mp hk with ⟨hlt, _⟩
      exact hlt
    have hkL : k + 1 < 1 + coords.length :=
      initTokens_ps_lt ext.voc coords.length l buf0 hinit k hklen
    have hbuf0len : buf0.length = 1 + coords.length :=
      initTokens_length ext.voc coords.length (some l) buf0 hinit
    have hfix : buf0.getD (k + 1) 0 = v :=
      initTokens_fixed ext.voc coords.length l buf0 hinit k c v hk hv
    have hkb : k + 1 < buf0.length := by omega
    refine ⟨?_, ?_, ?_⟩
    · intro out hout q hq
      rw [sampleRun_ok ext rng temp coords (some l) conf dev buf0 hinit] at hout
      dsimp only at hout
      cases hout
      have heq := List.mem_singleton.mp hq
      subst heq
      refine seq_get_of_buf ext.voc _ k v c ?_ ?_ htok
      · rw [decodeLoop_preserve ext rng temp _ _ _ (k + 1) (by rw [hfix]; exact hvm)]
        exact hfix
      · rw [decodeLoop_buf_length]
        exact hkb
    · intro out hout q hq
      cases dev with
      | none =>
        rw [batchRun_ok ext rng temp coords num (some l) conf none buf0 hinit] at hout
        dsimp only at hout
        have hb : (if (none : Option Dv).isSome = true
            then some (List.replicate num buf0) else none) =
            (none : Option (List (List Nat))) := rfl
        rw [hb] at hout
        cases num with
        | zero =>
          rw [List.range_zero, bOuter_nil] at hout
          dsimp only at hout
          cases hout
          simp at hq
        | succ m =>
          rw [List.range_succ_eq_map, bOuter_cons_none] at hout
          cases hout
      | some d =>
        rw [batchRun_dev_ok ext rng temp coords num (some l) conf d buf0 hinit] at hout
        dsimp only at hout
        cases hb2 : (bOuter ext rng temp coords.length
            (ext.encode (ext.convert (List.replicate num (coords, conf)) (some d)))
            (some (List.replicate num buf0)) (List.range num)
            ⟨ext.emptyCache, 0, [], [], []⟩).2 with
        | some er =>
          rw [hb2] at hout
          cases hout
        | none =>
          rw [hb2] at hout
          dsimp only at hout
          cases hout
          refine bOuter_seqs ext rng temp coords.length _ num buf0
            (fun q => q.get? k = some c) ?_ (List.range num) _ (by intro q2 hq2; simp at hq2)
            q hq
          intro s kc c0 tr pl
          refine seq_get_of_buf ext.voc _ k v c ?_ ?_ htok
          · rw [decodeLoop_preserve ext rng temp _ _ _ (k + 1) (by rw [hfix]; exact hvm)]
            exact hfix
          · rw [decodeLoop_buf_length]
            exact hkb
    · intro out hout q hq
      rw [batch2Run_ok ext rng temp coords num (some l) conf dev buf0 hinit] at hout
      dsimp only at hout
      obtain ⟨b, hbmem, rfl⟩ := extractSeqs_mem ext.voc _ (List.range num) out hout q hq
      have hb0 : ∀ b2 ∈ (if dev.isSome then List.replicate num buf0 else [buf0]),
          b2.getD (k + 1) 0 = v ∧ b2.length = 1 + coords.length := by
        intro b2 hb2
        have hbb : b2 = buf0 := by
          rcases Bool.eq_false_or_eq_true dev.isSome with hds | hds
          · rw [hds] at hb2
            simp [List.mem_replicate] at hb2
            exact hb2.2
          · rw [hds] at hb2
            simp at hb2
            exact hb2
        rw [hbb]
        exact ⟨hfix, hbuf0len⟩
      have hinv := b2Loop_bufs_inv ext rng temp _ (k + 1) v (1 + coords.length) hvm
        (List.range' 1 coords.length) _ hb0 b hbmem
      exact seq_get_of_buf ext.voc b k v c hinv.1 (by omega) htok

/-- Witness for C1's amended statement: partial sequence `["A"]` (a
non-mask symbol) at position 0 on a length-2 input, across the three
strategies. -/
theorem C1_amended_witness :
    (["A"] : List Tok).get? 0 = some "A" ∧ ext0.voc.get_idx "A" = some 0 ∧
    (0 ≠ ext0.voc.mask_idx) ∧ ext0.voc.get_tok 0 = "A" ∧
    ((∀ out, (sampleRun ext0 rng0 [(), ()] (some ["A"]) 1 none none).result = .ok out →
      ∀ q ∈ out, q.get? 0 = some "A") ∧
     (∀ out, (batchRun ext0 rng0 [(), ()] 2 (some ["A"]) 1 none (some ())).result = .ok out →
      ∀ q ∈ out, q.get? 0 = some "A") ∧
     (∀ out, (batch2Run ext0 rng0 [(), ()] 2 (some ["A"]) 1 none (some ())).result = .ok out →
      ∀ q ∈ out, q.get? 0 = some "A")) := by
  refine ⟨by decide, by decide, by decide, by decide, ?_, ?_, ?_⟩
  · exact (C1_amended_nonmask_supplied_positions_verbatim ext0 rng0 [(), ()] 2 ["A"] 1 none
      none 0 "A" 0 (by decide) (by decide) (by decide) (by decide)).1
  · exact (C1_amended_nonmask_supplied_positions_verbatim ext0 rng0 [(), ()] 2 ["A"] 1 none
      (some ()) 0 "A" 0 (by decide) (by decide) (by decide) (by decide)).2.1
  · exact (C1_amended_nonmask_supplied_positions_verbatim ext0 rng0 [(), ()] 2 ["A"] 1 none
      (some ()) 0 "A" 0 (by decide) (by decide) (by decide) (by decide)).2.2

end GVPSample

namespace GVPSample

variable {C Cf Dv BI E K : Type}
variable (ext : Ext C Cf Dv BI E K) (temp : ℚ)

/-- The batched decoder on a single row decodes that row. -/
lemma decStepBatch_single (p : List Nat) (e : E) (kc : K) :
    decStepBatch ext [p] e [kc] = ([(ext.decStep p e kc).1], [(ext.decStep p e kc).2]) := by
  simp [decStepBatch]

/-- The `sample_batch2` row loop on a single row: if the row's position `i`
holds the mask index, the first draw (consumed by the debug `print`) is
discarded and the second draw is written. -/
lemma b2Rows_single (rngB : Nat → List ℚ → Nat) (i : Nat) (buf : List Nat)
    (probs : List ℚ) (ctr : Nat) :
    b2Rows ext rngB i [(buf, probs)] ctr =
      if buf.getD i 0 = ext.voc.mask_idx
      then ([buf.set i (rngB (ctr + 1) probs)], ctr + 2)
      else ([buf], ctr) := by
  unfold b2Rows
  split
  · rfl
  · rfl

/-- One step of the vectorized loop on a batch of one row computes exactly
one step of the single-sequence loop: same decoder call, same cache, same
logits and softmax row, and — when the written draws of the two random
streams coincide — the same written token, with the vectorized stream
advancing by two draws (the debug print consumes one) where the
single-sequence stream advances by one. -/
lemma b2_sample_step (rngS rngB : Nat → List ℚ → Nat) (e : E)
    (hrng : ∀ (kk : Nat) (p : List ℚ), rngS kk p = rngB (2 * kk + 1) p)
    (i : Nat) (ss : SState E K) (bs : B2State E K)
    (h1 : bs.bufs = [ss.buf]) (h2 : bs.caches = [ss.cache])
    (h3 : bs.ctr = 2 * ss.ctr)
    (h4 : bs.plog = ss.plog.map (fun pr => ([pr.1], [pr.2]))) :
    (b2Step ext rngB temp e bs i).bufs = [(decodeStep ext rngS temp e ss i).buf] ∧
    (b2Step ext rngB temp e bs i).caches = [(decodeStep ext rngS temp e ss i).cache] ∧
    (b2Step ext rngB temp e bs i).ctr = 2 * (decodeStep ext rngS temp e ss i).ctr ∧
    (b2Step ext rngB temp e bs i).plog =
      (decodeStep ext rngS temp e ss i).plog.map (fun pr => ([pr.1], [pr.2])) := by
  unfold b2Step decodeStep
  dsimp only
  rw [h1, h2, h3, h4]
  simp only [List.map_cons, List.map_nil]
  rw [decStepBatch_single]
  dsimp only
  simp only [List.map_cons, List.map_nil, List.zip_cons_cons, List.zip_nil_left]
  rw [b2Rows_single]
  by_cases hm : ss.buf.getD i 0 = ext.voc.mask_idx
  · rw [if_pos hm, if_pos hm]
    dsimp only
    refine ⟨?_, rfl, by omega, by simp⟩
    rw [hrng ss.ctr]
  · rw [if_neg hm, if_neg hm]
    exact ⟨rfl, rfl, rfl, by simp⟩

/-- The vectorized decode loop on a batch of one row simulates the
single-sequence decode loop step for step. -/
lemma b2_sample_loop (rngS rngB : Nat → List ℚ → Nat) (e : E)
    (hrng : ∀ (kk : Nat) (p : List ℚ), rngS kk p = rngB (2 * kk + 1) p) :
    ∀ (idxs : List Nat) (ss : SState E K) (bs : B2State E K),
      bs.bufs = [ss.buf] → bs.caches = [ss.cache] → bs.ctr = 2 * ss.ctr →
      bs.plog = ss.plog.map (fun pr => ([pr.1], [pr.2])) →
      (idxs.foldl (b2Step ext rngB temp e) bs).bufs =
        [(idxs.foldl (decodeStep ext rngS temp e) ss).buf] ∧
      (idxs.foldl (b2Step ext rngB temp e) bs).caches =
        [(idxs.foldl (decodeStep ext rngS temp e) ss).cache] ∧
      (idxs.foldl (b2Step ext rngB temp e) bs).ctr =
        2 * (idxs.foldl (decodeStep ext rngS temp e) ss).ctr ∧
      (idxs.foldl (b2Step ext rngB temp e) bs).plog =
        (idxs.foldl (decodeStep ext rngS temp e) ss).plog.map (fun pr => ([pr.1], [pr.2])) := by
  intro idxs
  induction idxs with
  | nil => intro ss bs h1 h2 h3 h4; exact ⟨h1, h2, h3, h4⟩
  | cons i rest ih =>
    intro ss bs h1 h2 h3 h4
    obtain ⟨g1, g2, g3, g4⟩ := b2_sample_step ext temp rngS rngB e hrng i ss bs h1 h2 h3 h4
    exact ih _ _ g1 g2 g3 g4

/-- C5 counterexample: with `num_samples = 1`, identical inputs and the
same random stream for both strategies, `sample_batch2` and `sample` return
different sequences: the vectorized loop's debug `print` consumes an extra
multinomial draw at each masked position, so the written draw is the
stream's second value, not its first. -/
theorem C5_counterexample :
    (batch2Run ext0 rng0 [()] 1 none 1 none none).result = .ok [["B"]] ∧
    (sampleRun ext0 rng0 [()] none 1 none none).result = .ok [["A"]] ∧
    (batch2Run ext0 rng0 [()] 1 none 1 none none).result ≠
      (sampleRun ext0 rng0 [()] none 1 none none).result := by
  refine ⟨by decide, by decide, by decide⟩

/-- C5 amended: with `num_samples = 1` and identical inputs,
`sample_batch2` performs step for step the same computation as `sample` —
the same decoder invocations on the same prefixes with the same threaded
cache, hence numerically identical logits and softmax rows at every step
(the vectorized `plog` rows are exactly the single-sequence ones) — except
that at each masked position it consumes two random draws (the first in a
debug `print`, discarded) and writes the second; so the outputs coincide
exactly when the written draws coincide, i.e. when the single-sequence
stream `rngS` equals the vectorized stream `rngB` at the mapped odd draw
indices — batching of size 1 is a no-op up to this draw-index shift. -/
theorem C5_amended_batch1_noop_up_to_draw_shift (ext : Ext C Cf Dv BI E K)
    (rngS rngB : Nat → List ℚ → Nat)
    (hrng : ∀ (kk : Nat) (p : List ℚ), rngS kk p = rngB (2 * kk + 1) p)
    (coords : List C) (ps : Option (List Tok)) (temp : ℚ) (conf : Option Cf)
    (dev : Option Dv) :
    (batch2Run ext rngB coords 1 ps temp conf dev).result =
      (sampleRun ext rngS coords ps temp conf dev).result ∧
    (batch2Run ext rngB coords 1 ps temp conf dev).plog =
      (sampleRun ext rngS coords ps temp conf dev).plog.map (fun pr => ([pr.1], [pr.2])) := by
  cases hinit : initTokens ext.voc coords.length ps with
  | error e =>
    rw [batch2Run_err ext rngB temp coords 1 ps conf dev e hinit,
      sampleRun_err ext rngS temp coords ps conf dev e hinit]
    exact ⟨rfl, rfl⟩
  | ok buf0 =>
    rw [batch2Run_ok ext rngB temp coords 1 ps conf dev buf0 hinit,
      sampleRun_ok ext rngS temp coords ps conf dev buf0 hinit]
    dsimp only
    have hbufs0 : (if dev.isSome then List.replicate 1 buf0 else [buf0]) = [buf0] := by
      rcases Bool.eq_false_or_eq_true dev.isSome with hds | hds <;> rw [hds] <;> simp
    have henc : List.replicate 1 (coords, conf) = [(coords, conf)] := by simp
    rw [hbufs0, henc]
    obtain ⟨g1, g2, g3, g4⟩ := b2_sample_loop ext temp rngS rngB
      (ext.encode (ext.convert [(coords, conf)] dev)) hrng (List.range' 1 coords.length)
      ⟨buf0, ext.emptyCache, 0, [], []⟩
      ⟨[buf0], List.replicate ([buf0] : List (List Nat)).length ext.emptyCache, 0, [], []⟩
      rfl (by simp) rfl rfl
    refine ⟨?_, g4⟩
    have hr1 : List.range 1 = [0] := rfl
    rw [g1, hr1]
    rfl

/-- Witness for C5's amended statement: the matched streams `rngW`/`rng0`
on a length-1 input with one sample. -/
theorem C5_amended_witness :
    (∀ (kk : Nat) (p : List ℚ), rngW kk p = rng0 (2 * kk + 1) p) ∧
    ((batch2Run ext0 rng0 [()] 1 none 1 none none).result =
       (sampleRun ext0 rngW [()] none 1 none none).result ∧
     (batch2Run ext0 rng0 [()] 1 none 1 none none).plog =
       (sampleRun ext0 rngW [()] none 1 none none).plog.map (fun pr => ([pr.1], [pr.2]))) :=
  ⟨fun _ _ => rfl,
    C5_amended_batch1_noop_up_to_draw_shift ext0 rngW rng0 (fun _ _ => rfl) [()] none 1 none none⟩

end GVPSample
